import Mathlib

/-!
Verification development for the mttl model-merging library.

This file gives a shallow embedding, in Lean 4, of the parts of
src/mttl/models/library/library_transforms.py and src/mttl/models/modifiers/lora.py
that the verified properties talk about, together with theorems settling those
properties.  Tensors are modelled with exact rational arithmetic (the Python code
uses floating point; the properties under study are stated up to floating-point
error, so the exact-arithmetic model is the intended semantics).  Python dicts
with string keys are modelled as association lists, and in-place tensor mutation
(needed for the frame property) is modelled with an explicit heap of tensors.
-/

namespace Mttl

/-- A tensor, flattened to its list of entries (elementwise operations only). -/
abbrev Tensor := List ℚ

/-- Elementwise tensor addition, as in torch's broadcast-free x + y. -/
def tAdd (t v : Tensor) : Tensor := List.zipWith (· + ·) t v

/-- Lookup in a Python dict modelled as an association list (first hit wins;
Python dicts have unique keys). -/
def lookupBy {β : Type} : List (String × β) → String → Option β
  | [], _ => none
  | kv :: rest, k => if kv.1 = k then some kv.2 else lookupBy rest k

/-- An expert's weight mapping: ordered mapping from parameter path to tensor. -/
abbrev Weights := List (String × Tensor)

/-- The key list of a weight mapping. -/
def keysW {β : Type} (m : List (String × β)) : List String := m.map Prod.fst

/-- Python dict item assignment for a key that is present
(all call sites below are guarded by an asserted key-set equality,
so the executed semantics never inserts a fresh key). -/
def updateKeyW (m : Weights) (k : String) (f : Tensor → Tensor) : Weights :=
  m.map fun kv => if kv.1 = k then (kv.1, f kv.2) else kv

/-- Tensor stored at a key (the asserts guarantee the key is present). -/
def getT (m : Weights) (k : String) : Tensor := (lookupBy m k).getD []

/-- An expert: name, a tag standing for type(expert_config), and its weights. -/
structure PExpert where
  name : String
  configType : String
  weights : Weights
deriving DecidableEq, Repr

/-- torch sign: -1, 0 or 1. -/
def qSign (x : ℚ) : ℚ := if 0 < x then 1 else if x < 0 then -1 else 0

/-- torch.quantile with the default linear interpolation:
for sorted values a_0 ≤ ... ≤ a_(n-1), the q-quantile is
a_i + (q*(n-1) - i) * (a_(i+1) - a_i) with i = floor(q*(n-1)). -/
def torchQuantile (q : ℚ) (v : List ℚ) : ℚ :=
  let s := List.insertionSort (· ≤ ·) v
  let n := s.length
  if n = 0 then 0
  else
    let pos : ℚ := q * ((n : ℚ) - 1)
    let i : ℕ := (⌊pos⌋).toNat
    let frac : ℚ := pos - (i : ℚ)
    let lo := s.getD i 0
    let hi := s.getD (min (i + 1) (n - 1)) 0
    lo + frac * (hi - lo)

/-! ## TiesMerge (library_transforms.py lines 922-1023) -/

/-- TiesMergeConfig (defaults top_k=0.2, only_sparsify=False). -/
structure TiesConfig where
  top_k : ℚ := 2/10
  only_sparsify : Bool := false
deriving DecidableEq, Repr

/-- TiesMerge.__init__: asserts 0.0 < top_k <= 1.0 (line 937); a failing assert
raises, so no instance is constructed. -/
def tiesInit (cfg : TiesConfig) : Except String TiesConfig :=
  if 0 < cfg.top_k ∧ cfg.top_k ≤ 1 then .ok cfg else .error "AssertionError"

/-- torch.nn.utils.parameters_to_vector over state_dict_keys (transform lines
980-986): concatenation of the expert's tensors in base-key order. -/
def flattenExpert (stateKeys : List String) (w : Weights) : Tensor :=
  (stateKeys.map fun k => getT w k).flatten

/-- Per-expert magnitude threshold (line 989): the (1 - top_k)-quantile of the
absolute values of the expert's flattened parameter vector. -/
def expertThreshold (stateKeys : List String) (top_k : ℚ) (w : Weights) : ℚ :=
  torchQuantile (1 - top_k) ((flattenExpert stateKeys w).map fun x => |x|)

/-- Realized kept fraction of an expert (lines 990-992): fraction of entries of
the flattened vector whose absolute value is at or above the threshold. -/
def realizedKeepFraction (stateKeys : List String) (top_k : ℚ) (w : Weights) : ℚ :=
  let v := flattenExpert stateKeys w
  let th := expertThreshold stateKeys top_k w
  (((v.filter fun x => th ≤ |x|).length : ℚ)) / ((v.length : ℚ))

/-- torch .mean(0) over a stack of equally-shaped tensors: elementwise sum of
the stack divided by the stack size. -/
def stackMean (ts : List Tensor) : Tensor :=
  match ts with
  | [] => []
  | t :: r => (r.foldl tAdd t).map (· / ((ts.length : ℚ)))

/-- TiesMerge.merge_param (lines 939-961).  ths holds the per-expert thresholds
(the broadcast TH), stack the per-expert tensors for one parameter.  Keeps
entries at or above the expert's threshold, then either plain-averages
(only_sparsify) or averages only the entries agreeing with the sign of the
elementwise sum, with the denominator clamped to at least 1.  The first
assignment to sign_per_dim in the source (line 951) is dead, overwritten on
line 952 by the sign of the sum; only the latter is modelled.  The diagnostic
counter used only for logging is omitted. -/
def mergeParamT (cfg : TiesConfig) (ths : List ℚ) (stack : List Tensor) : Tensor :=
  let trimmed := List.zipWith (fun th t => t.map fun w => if th ≤ |w| then w else 0) ths stack
  if cfg.only_sparsify then
    stackMean trimmed
  else
    let len := (trimmed.headD []).length
    (List.range len).map fun j =>
      let col := trimmed.map fun t => t.getD j 0
      let s := qSign col.sum
      let matching := col.filter fun w => qSign w = s
      let deno : ℚ := max ((matching.length : ℚ)) 1
      matching.sum / deno

/-- The kept-fraction assert condition of TiesMerge.transform (lines 992-993):
every expert's realized kept fraction is within 1e-4 of top_k. -/
def tiesGuardOK (cfg : TiesConfig) (stateKeys : List String) (experts : List PExpert) : Prop :=
  ∀ e ∈ experts, |realizedKeepFraction stateKeys cfg.top_k e.weights - cfg.top_k| < 1/10000

instance (cfg : TiesConfig) (sk : List String) (es : List PExpert) :
    Decidable (tiesGuardOK cfg sk es) :=
  List.decidableBAll _ es

/-- The merge loop of TiesMerge.transform (lines 997-1011): every parameter of
the deep-copied accumulator is overwritten with the merged parameter computed
from the stacked expert tensors. -/
def tiesMergedWeights (cfg : TiesConfig) (ths : List ℚ) (experts : List PExpert)
    (stateKeys : List String) (base : Weights) : Weights :=
  stateKeys.foldl
    (fun acc k =>
      updateKeyW acc k fun _ => mergeParamT cfg ths (experts.map fun e => getT e.weights k))
    base

/-- TiesMerge.transform (lines 963-1023) on a library given as a list of
experts.  An empty library raises (experts[0]); the kept-fraction assert (line
993) raises AssertionError when violated; otherwise every parameter of a deep
copy of the first expert is overwritten with the merged parameter.  The
logging-only counters are omitted. -/
def tiesTransform (cfg : TiesConfig) (experts : List PExpert) : Except String PExpert :=
  match experts with
  | [] => .error "IndexError"
  | e0 :: rest =>
    let all := e0 :: rest
    let stateKeys := keysW e0.weights
    let ths := all.map fun e => expertThreshold stateKeys cfg.top_k e.weights
    if _h : tiesGuardOK cfg stateKeys all then
      .ok { name := "ties_weighted_expert", configType := e0.configType
            weights := tiesMergedWeights cfg ths all stateKeys e0.weights }
    else .error "AssertionError"

/-! ## WeightedLinearMerge (library_transforms.py lines 707-771) -/

/-- WeightedLinearMergeConfig: an optional per-expert weight mapping. -/
structure WLMConfig where
  weights : Option (List (String × ℚ)) := none
deriving DecidableEq, Repr

/-- The inner accumulation loop (lines 760-761):
for k, v in expert.expert_weights.items(): base[k] += v * weight. -/
def wlmAddExpert (base : Weights) (e : Weights) (w : ℚ) : Weights :=
  e.foldl (fun acc kv => updateKeyW acc kv.1 fun t => tAdd t (kv.2.map (· * w))) base

/-- One step of the loop over experts[1:] (lines 747-761): compatibility
asserts, then accumulate with the expert's weight (1.0 when no weights given). -/
def wlmStep (cfg : WLMConfig) (e0 : PExpert) (acc : Weights) (e : PExpert) :
    Except String Weights :=
  if e.configType = e0.configType then
    if (∀ k ∈ keysW e.weights, k ∈ keysW acc) ∧ (∀ k ∈ keysW acc, k ∈ keysW e.weights) then
      let w : ℚ := match cfg.weights with
        | none => 1
        | some ws => (lookupBy ws e.name).getD 0
      .ok (wlmAddExpert acc e.weights w)
    else .error "Expert weights must have the same keys"
  else .error "Expert configs must be the same type"

/-- WeightedLinearMerge.transform (lines 721-771): deep-copy the first expert,
optionally pre-scale it by its weight (lines 734-745; the sum-to-1 check only
warns), accumulate the remaining experts, and divide by the expert count when
no weights were supplied. -/
def wlmTransform (cfg : WLMConfig) (experts : List PExpert) : Except String PExpert :=
  match experts with
  | [] => .error "IndexError"
  | e0 :: rest =>
    let all := e0 :: rest
    let scaled : Except String Weights :=
      match cfg.weights with
      | none => .ok e0.weights
      | some ws =>
        if (∀ k ∈ keysW ws, k ∈ all.map PExpert.name) ∧
            (∀ k ∈ all.map PExpert.name, k ∈ keysW ws) then
          .ok (e0.weights.map fun kv =>
            (kv.1, kv.2.map (· * (lookupBy ws e0.name).getD 0)))
        else .error "Weights must have the same keys as the experts"
    match scaled with
    | .error msg => .error msg
    | .ok b1 =>
      match rest.foldlM (wlmStep cfg e0) b1 with
      | .error msg => .error msg
      | .ok final =>
        let normalized := match cfg.weights with
          | none => final.map fun kv => (kv.1, kv.2.map (· / ((all.length : ℚ))))
          | some _ => final
        .ok { name := "weighted_expert", configType := e0.configType, weights := normalized }

/-- The unconditional elementwise mean of a family of equally-shaped tensors,
written from the specification's words ("elementwise mean of the corresponding
tensors across all input experts"). -/
def unconditionalMean (ts : List Tensor) : Tensor :=
  match ts with
  | [] => []
  | t :: r => (r.foldl tAdd t).map (· / ((ts.length : ℚ)))

/-! ## SVDEmbeddingTransform fetch / transform (library_transforms.py 124-154) -/

/-- SVDEmbeddingTransform.fetch (lines 124-141): returns the cached
auxiliary-data mapping when its size equals the library's expert count K and
otherwise raises ValueError. -/
def svdFetch (aux : List (String × Tensor)) (K : ℕ) :
    Except String (List (String × Tensor)) :=
  if aux.length = K then .ok aux
  else .error "SVD embeddings are missing or corrupted, please recompute them."

/-- SVDEmbeddingTransform.transform (lines 143-154), caching control flow: try
fetch; on success with recompute=False return the cached mapping; on a fetch
ValueError (caught internally) or with recompute=True, recompute.  The
recomputation itself (sklearn randomized truncated SVD of the sparsified
stacked expert vectors, lines 156-211) is numerical/randomized code outside
this claim and is abstracted as the argument `computed`. -/
def svdTransform (aux : List (String × Tensor)) (K : ℕ) (recompute : Bool)
    (computed : List (String × Tensor)) : List (String × Tensor) :=
  match svdFetch aux K with
  | .ok out => if ¬ recompute then out else computed
  | .error _ => computed

/-! ## LoRA adapter (lora.py) -/

/-- torch.nn.Linear with weight of shape out_features x in_features and bias. -/
structure LinearQ (i o : ℕ) where
  weight : Matrix (Fin o) (Fin i) ℚ
  bias : Fin o → ℚ
deriving DecidableEq

/-- nn.Linear forward: x ↦ W x + b (single activation vector). -/
def LinearQ.forward (l : LinearQ i o) (x : Fin i → ℚ) : Fin o → ℚ :=
  l.weight.mulVec x + l.bias

/-- The LoRAConfig fields the embedded adapter depends on; the rank is carried
as the dimension parameter r of the adapter.  lora_dropout is modelled in its
default 0.0 configuration, where the dropout layer is the identity (lora.py
lines 94-97); the properties below are independent of the dropout mask. -/
structure LoRAConfigQ where
  lora_alpha : ℚ := 16
  lora_init_b_random : Bool := false
deriving DecidableEq, Repr

/-- The mutable state of a LoRA adapter over a non-quantized nn.Linear:
the wrapped layer, the two low-rank factors, the scaling alpha/rank, and the
merged / enabled flags (lora.py lines 70-109). -/
structure LoRAState (i o r : ℕ) where
  layer : LinearQ i o
  lora_a : Matrix (Fin i) (Fin r) ℚ
  lora_b : Matrix (Fin r) (Fin o) ℚ
  scaling : ℚ
  merged_with_layer : Bool
  enabled : Bool
deriving DecidableEq

/-- reset_parameters for the B factor (lora.py lines 258-263): zero unless
lora_init_b_random, in which case a uniform draw (modelled as an arbitrary
matrix b_draw). -/
def loraResetB (init_b_random : Bool) (b_draw : Matrix (Fin r) (Fin o) ℚ) :
    Matrix (Fin r) (Fin o) ℚ :=
  if init_b_random then b_draw else 0

/-- LoRA.__init__ over an nn.Linear (lora.py lines 70-109): scaling = alpha /
rank, factors from reset_parameters (the Kaiming-uniform draw for A is an
arbitrary matrix a_draw), not merged, enabled. -/
def loraNew (cfg : LoRAConfigQ) (layer : LinearQ i o)
    (a_draw : Matrix (Fin i) (Fin r) ℚ) (b_draw : Matrix (Fin r) (Fin o) ℚ) :
    LoRAState i o r :=
  { layer := layer
    lora_a := a_draw
    lora_b := loraResetB cfg.lora_init_b_random b_draw
    scaling := cfg.lora_alpha / (r : ℚ)
    merged_with_layer := false
    enabled := true }

/-- LoRA.forward (lora.py lines 198-210): the base layer's output, plus, when
not merged and enabled, scaling * ((x A) B). -/
def LoRAState.forward (st : LoRAState i o r) (x : Fin i → ℚ) : Fin o → ℚ :=
  let output := st.layer.forward x
  if st.merged_with_layer ∨ ¬ st.enabled then output
  else output + st.scaling • Matrix.vecMul (Matrix.vecMul x st.lora_a) st.lora_b

/-- LoRA.merge_with_layer on a non-quantized nn.Linear (lora.py lines 128-137
and 188): sets merged_with_layer, computes A B, transposed unless the
back-compatibility shape test lora_a.shape[0] == weight.shape[0] holds, scales
it and adds it in place to the layer weight. -/
def LoRAState.mergeWithLayer (st : LoRAState i o r) : LoRAState i o r :=
  let ab := st.lora_a * st.lora_b
  let to_merge : Matrix (Fin o) (Fin i) ℚ :=
    if h : i = o then (fun x y => ab (Fin.cast h.symm x) (Fin.cast h y))
    else ab.transpose
  { st with
    merged_with_layer := true
    layer := { st.layer with weight := st.layer.weight + st.scaling • to_merge } }

/-! ## ArrowTransform acceptance check (library_transforms.py lines 1641-1655) -/

/-- Sum of squares of a vector, i.e. torch .pow(2).sum(). -/
def sqNormV (v : Fin n → ℚ) : ℚ := ∑ i, (v i) ^ 2

/-- torch.allclose(input, ones, rtol, atol): every entry within
atol + rtol * 1 of 1. -/
def allcloseOnes (rv : Fin n → ℚ) (rtol atol : ℚ) : Bool :=
  decide (∀ i, |rv i - 1| ≤ atol + rtol * 1)

/-- ArrowTransform.transform, per-layer acceptance of the extracted top
singular vector (lines 1641-1655).  The eigenvector validation on line 1644
computes torch.allclose(ratio, ones, atol=1e-3) and discards its result (the
call is a bare expression statement, not an assert); only the comparison of
line 1647-1649 is asserted.  On success the top vector is saved. -/
def arrowCheckTopVector (W : Matrix (Fin m) (Fin n) ℚ)
    (top_vector bottom_vector : Fin n → ℚ) (top_value : ℚ) :
    Except String (Fin n → ℚ) :=
  let WTW := W.transpose * W
  let ratio : Fin n → ℚ := fun j => WTW.mulVec top_vector j / (top_vector j * top_value)
  let _discarded := allcloseOnes ratio (1/100000) (1/1000)
  if sqNormV (WTW.mulVec bottom_vector) ≤ sqNormV (WTW.mulVec top_vector) then
    .ok top_vector
  else .error "AssertionError"

/-! ## Iterative disentangle merge losses (library_transforms.py) -/

/-- Squared Frobenius norm of a matrix. -/
def sqFrob (M : Matrix (Fin a) (Fin b) ℚ) : ℚ := ∑ i, ∑ j, (M i j) ^ 2

/-- WudiMergeAfter.get_optimized_task_vector, the loss of one optimization
step (lines 273-277): inner_product = (M - tau_i) tau_i^T per task, loss =
torch.sum(torch.square(inner_product)).  The l2_norms computed on lines
262-264 are not used in this loss. -/
def wudiAfterStepLoss (M : Matrix (Fin a) (Fin b) ℚ)
    (taskVectors : List (Matrix (Fin a) (Fin b) ℚ)) : ℚ :=
  (taskVectors.map fun τ => ∑ i, ∑ j, (((M - τ) * τ.transpose) i j) ^ 2).sum

/-- WuDiMerge2.get_optimized_task_vector, the loss of one optimization step
(lines 493-508): per task, inner_product = (M - taskvector_i) low_rank_i^T,
and the elementwise squares are divided by l2_norms_i = squared Frobenius norm
of taskvector_i before summation. -/
def wudi2StepLoss (M : Matrix (Fin a) (Fin b) ℚ)
    (taskvector low_rank : List (Matrix (Fin a) (Fin b) ℚ)) : ℚ :=
  ((taskvector.zip low_rank).map fun p =>
    ∑ i, ∑ j, (((M - p.1) * p.2.transpose) i j) ^ 2 / sqFrob p.1).sum

/-- The loss ascribed by the specification to both iterative variants, written
from the spec's words: sum over tasks of the squared Frobenius norm of
(M - tau_i) tau_i^T divided by the squared Frobenius norm of tau_i. -/
def specNormalizedDisentangleLoss (M : Matrix (Fin a) (Fin b) ℚ)
    (taskVectors : List (Matrix (Fin a) (Fin b) ℚ)) : ℚ :=
  (taskVectors.map fun τ => sqFrob ((M - τ) * τ.transpose) / sqFrob τ).sum

/-! ## Heap model of the merge transforms

Python tensors are mutable objects: copy.deepcopy versus aliasing matters for
the frame property (only the deep-copied accumulator is mutated).  Tensors live
in a heap addressed by natural numbers; an expert's weight mapping maps
parameter paths to addresses.  deepcopy allocates fresh addresses, and the
in-place tensor statements of the source (*=, +=, /=, .data.copy_) become heap
writes. -/

/-- The tensor heap. -/
abbrev Heap := List Tensor

/-- Dereference an address. -/
def readT (h : Heap) (a : ℕ) : Tensor := h.getD a []

/-- In-place overwrite of the tensor at an address. -/
def writeT (h : Heap) (a : ℕ) (t : Tensor) : Heap := h.set a t

/-- An expert whose tensors live on the heap. -/
structure HExpert where
  name : String
  configType : String
  weights : List (String × ℕ)
deriving DecidableEq, Repr

/-- copy.deepcopy of a weight mapping: every tensor is copied into a fresh
heap cell; the copy's mapping points at the fresh addresses. -/
def deepcopyW (h : Heap) (w : List (String × ℕ)) : Heap × List (String × ℕ) :=
  w.foldl
    (fun st kv => (st.1 ++ [readT st.1 kv.2], st.2 ++ [(kv.1, st.1.length)]))
    (h, [])

/-- base_expert.expert_weights[k] *= c for every key (WeightedLinearMerge
lines 744-745, in-place scaling of the deep-copied accumulator). -/
def wlmScaleBaseH (h : Heap) (base : List (String × ℕ)) (c : ℚ) : Heap :=
  base.foldl (fun h1 kv => writeT h1 kv.2 ((readT h1 kv.2).map (· * c))) h

/-- base_expert.expert_weights[k] += v * weight over an expert's items
(WeightedLinearMerge lines 760-761); under the asserted key-set equality every
key is present in base. -/
def wlmAddExpertH (h : Heap) (base : List (String × ℕ)) (e : List (String × ℕ))
    (w : ℚ) : Heap :=
  e.foldl
    (fun h1 kv =>
      match lookupBy base kv.1 with
      | some a => writeT h1 a (tAdd (readT h1 a) ((readT h1 kv.2).map (· * w)))
      | none => h1)
    h

/-- The loop over experts[1:] of WeightedLinearMerge.transform (lines 747-761)
with the heap explicit; an assert failure raises, leaving the heap as it is. -/
def wlmLoopH (cfg : WLMConfig) (e0 : HExpert) (base : List (String × ℕ)) :
    Heap → List HExpert → Heap × Except String Unit
  | h, [] => (h, .ok ())
  | h, e :: rest =>
    if e.configType = e0.configType then
      if (∀ k ∈ keysW e.weights, k ∈ keysW base) ∧
          (∀ k ∈ keysW base, k ∈ keysW e.weights) then
        let w : ℚ := match cfg.weights with
          | none => 1
          | some ws => (lookupBy ws e.name).getD 0
        wlmLoopH cfg e0 base (wlmAddExpertH h base e.weights w) rest
      else (h, .error "Expert weights must have the same keys")
    else (h, .error "Expert configs must be the same type")

/-- base_expert.expert_weights[k] /= n for every key (lines 764-766). -/
def wlmDivideBaseH (h : Heap) (base : List (String × ℕ)) (n : ℚ) : Heap :=
  base.foldl (fun h1 kv => writeT h1 kv.2 ((readT h1 kv.2).map (· / n))) h

/-- WeightedLinearMerge.transform (lines 721-771) with the heap explicit.
Returns the final heap together with the merged expert or the raised error. -/
def wlmTransformH (cfg : WLMConfig) (h : Heap) (experts : List HExpert) :
    Heap × Except String HExpert :=
  match experts with
  | [] => (h, .error "IndexError")
  | e0 :: rest =>
    let all := e0 :: rest
    let hb := deepcopyW h e0.weights
    let h1 := hb.1
    let base := hb.2
    let scaled : Heap × Except String Unit :=
      match cfg.weights with
      | none => (h1, .ok ())
      | some ws =>
        if (∀ k ∈ keysW ws, k ∈ all.map HExpert.name) ∧
            (∀ k ∈ all.map HExpert.name, k ∈ keysW ws) then
          (wlmScaleBaseH h1 base ((lookupBy ws e0.name).getD 0), .ok ())
        else (h1, .error "Weights must have the same keys as the experts")
    match scaled.2 with
    | .error msg => (scaled.1, .error msg)
    | .ok _ =>
      let looped := wlmLoopH cfg e0 base scaled.1 rest
      match looped.2 with
      | .error msg => (looped.1, .error msg)
      | .ok _ =>
        let hfin := match cfg.weights with
          | none => wlmDivideBaseH looped.1 base ((all.length : ℚ))
          | some _ => looped.1
        (hfin, .ok { name := "weighted_expert", configType := e0.configType, weights := base })

/-- TiesMerge.transform (lines 963-1023) with the heap explicit: deep-copy the
first expert, compute thresholds and the kept-fraction assert from heap reads,
then overwrite each parameter of the copy in place via .data.copy_. -/
def tiesTransformH (cfg : TiesConfig) (h : Heap) (experts : List HExpert) :
    Heap × Except String HExpert :=
  match experts with
  | [] => (h, .error "IndexError")
  | e0 :: rest =>
    let all := e0 :: rest
    let hb := deepcopyW h e0.weights
    let h1 := hb.1
    let base := hb.2
    let stateKeys := keysW base
    let weightsOf : HExpert → Weights := fun e =>
      e.weights.map fun kv => (kv.1, readT h1 kv.2)
    let ths := all.map fun e => expertThreshold stateKeys cfg.top_k (weightsOf e)
    if _h : ∀ e ∈ all,
        |realizedKeepFraction stateKeys cfg.top_k (weightsOf e) - cfg.top_k| < 1/10000 then
      let hfin := stateKeys.foldl
        (fun h2 k =>
          match lookupBy base k with
          | some a =>
            writeT h2 a
              (mergeParamT cfg ths (all.map fun e => readT h2 ((lookupBy e.weights k).getD 0)))
          | none => h2)
        h1
      (hfin, .ok { name := "ties_weighted_expert", configType := e0.configType, weights := base })
    else (h1, .error "AssertionError")

/-! ## Concrete inputs used by counterexamples and failing-input evaluations -/

/-- Failing input for the Arrow eigenvector validation: a 2x2 diagonal map. -/
def arrowW : Matrix (Fin 2) (Fin 2) ℚ := !![1, 0; 0, 2]

/-- A candidate top vector that is not an eigenvector of arrowW^T arrowW. -/
def arrowTop : Fin 2 → ℚ := ![1, 1]

/-- The accompanying bottom vector. -/
def arrowBottom : Fin 2 → ℚ := ![1, 0]

/-- A one-by-one merged iterate for the disentangle-loss counterexample. -/
def cexM : Matrix (Fin 1) (Fin 1) ℚ := 0

/-- A one-by-one task vector with Frobenius norm 2. -/
def cexTau : Matrix (Fin 1) (Fin 1) ℚ := !![2]

deriving instance DecidableEq for Except

/-- First of two merge-compatible one-parameter experts whose values disagree
in sign. -/
def cexTiesA : PExpert := { name := "e1", configType := "LoRAConfig", weights := [("k", [2])] }

/-- Second of the sign-disagreeing pair. -/
def cexTiesB : PExpert := { name := "e2", configType := "LoRAConfig", weights := [("k", [-1])] }

/-- A single expert whose two parameter entries tie in absolute value, so the
realized kept fraction cannot match top_k = 1/2. -/
def cexTiesTie : PExpert := { name := "e", configType := "LoRAConfig", weights := [("k", [1, 1])] }

/-- A small expert for witnessing a successful TiesMerge run. -/
def witTies : PExpert := { name := "e", configType := "LoRAConfig", weights := [("k", [1, 2])] }

/-- First expert of the witness pair for averaging merges. -/
def witWlmA : PExpert := { name := "a", configType := "LoRAConfig", weights := [("k", [1, 3])] }

/-- Second expert of the witness pair for averaging merges. -/
def witWlmB : PExpert := { name := "b", configType := "LoRAConfig", weights := [("k", [3, 5])] }

/-! ## Supporting lemmas -/

theorem sorted_getD_zero_le (s : List ℚ) (hs : s.Sorted (· ≤ ·)) (x : ℚ) (hx : x ∈ s) :
    s.getD 0 0 ≤ x := by
  cases s with
  | nil => cases hx
  | cons a t =>
    rcases List.mem_cons.mp hx with h | h
    · simp [h]
    · exact (List.sorted_cons.mp hs).1 x h

theorem torchQuantile_zero (v : List ℚ) (hv : v ≠ []) :
    torchQuantile 0 v = (List.insertionSort (· ≤ ·) v).getD 0 0 := by
  unfold torchQuantile
  have hlen : (List.insertionSort (· ≤ ·) v).length ≠ 0 := by
    rw [List.length_insertionSort]
    exact fun h => hv (List.eq_nil_of_length_eq_zero h)
  simp [hlen, hv]

/-- The 0-quantile of a nonempty list bounds every element from below. -/
theorem torchQuantile_zero_le (v : List ℚ) (x : ℚ) (hx : x ∈ v) : torchQuantile 0 v ≤ x := by
  rw [torchQuantile_zero v (List.ne_nil_of_mem hx)]
  exact sorted_getD_zero_le _ (List.sorted_insertionSort _ v) x
    ((List.mem_insertionSort (· ≤ ·)).mpr hx)

theorem map_mul_one (t : Tensor) : t.map (· * 1) = t := by
  simp

theorem zipWith_map_same {α β γ δ : Type} (f : β → γ → δ) (g : α → β) (h : α → γ)
    (l : List α) :
    List.zipWith f (l.map g) (l.map h) = l.map fun x => f (g x) (h x) := by
  induction l with
  | nil => rfl
  | cons a l ih => simp [ih]

theorem map_if_all_kept (th : ℚ) (t : Tensor) (hall : ∀ w ∈ t, th ≤ |w|) :
    (t.map fun w => if th ≤ |w| then w else 0) = t := by
  induction t with
  | nil => rfl
  | cons a t ih =>
    rw [List.map_cons, if_pos (hall a (List.mem_cons_self a t)),
      ih fun w hw => hall w (List.mem_cons_of_mem a hw)]

theorem getT_cons_self {kv : String × Tensor} {rest : Weights} {k : String}
    (h : kv.1 = k) : getT (kv :: rest) k = kv.2 := by
  simp [getT, lookupBy, h]

theorem getT_cons_ne {kv : String × Tensor} {rest : Weights} {k : String}
    (h : ¬ kv.1 = k) : getT (kv :: rest) k = getT rest k := by
  simp [getT, lookupBy, h]

theorem lookupBy_updateKeyW (m : Weights) (k k' : String) (f : Tensor → Tensor) :
    lookupBy (updateKeyW m k f) k'
      = if k' = k then (lookupBy m k').map f else lookupBy m k' := by
  induction m with
  | nil => by_cases h : k' = k <;> simp [updateKeyW, lookupBy, h]
  | cons kv rest ih =>
    show lookupBy ((if kv.1 = k then (kv.1, f kv.2) else kv) :: updateKeyW rest k f) k' = _
    by_cases h1 : kv.1 = k
    · rw [if_pos h1]
      by_cases h2 : kv.1 = k'
      · have hk'k : k' = k := by rw [← h2, h1]
        rw [lookupBy, if_pos h2, if_pos hk'k, lookupBy, if_pos h2]
        rfl
      · rw [lookupBy, if_neg h2, ih]
        have hcons : lookupBy (kv :: rest) k' = lookupBy rest k' := by
          rw [lookupBy, if_neg h2]
        by_cases h3 : k' = k
        · rw [if_pos h3, if_pos h3, hcons]
        · rw [if_neg h3, if_neg h3, hcons]
    · rw [if_neg h1]
      by_cases h2 : kv.1 = k'
      · have h3 : ¬ k' = k := fun h => h1 (h2.trans h)
        rw [lookupBy, if_pos h2, if_neg h3, lookupBy, if_pos h2]
      · rw [lookupBy, if_neg h2, ih]
        have hcons : lookupBy (kv :: rest) k' = lookupBy rest k' := by
          rw [lookupBy, if_neg h2]
        by_cases h3 : k' = k
        · rw [if_pos h3, if_pos h3, hcons]
        · rw [if_neg h3, if_neg h3, hcons]

theorem keysW_updateKeyW (m : Weights) (k : String) (f : Tensor → Tensor) :
    keysW (updateKeyW m k f) = keysW m := by
  induction m with
  | nil => rfl
  | cons kv rest ih =>
    by_cases h : kv.1 = k <;> simp [updateKeyW, keysW, h] <;>
      simpa [updateKeyW, keysW] using ih

theorem mem_keysW_lookupBy {m : Weights} {k : String} (hk : k ∈ keysW m) :
    ∃ t, lookupBy m k = some t := by
  induction m with
  | nil => cases hk
  | cons kv rest ih =>
    by_cases h : kv.1 = k
    · exact ⟨kv.2, by simp [lookupBy, h]⟩
    · rcases List.mem_cons.mp hk with h1 | h1
      · exact absurd h1.symm h
      · obtain ⟨t, ht⟩ := ih h1
        exact ⟨t, by simp [lookupBy, h, ht]⟩

theorem lookupBy_some_mem {m : Weights} {k : String} {t : Tensor}
    (h : lookupBy m k = some t) : k ∈ keysW m := by
  induction m with
  | nil => cases h
  | cons kv rest ih =>
    by_cases h1 : kv.1 = k
    · simp [keysW, h1]
    · rw [lookupBy, if_neg h1] at h
      exact List.mem_cons_of_mem _ (ih h)

theorem lookupBy_map_value (m : Weights) (k : String) (f : Tensor → Tensor) :
    lookupBy (m.map fun kv => (kv.1, f kv.2)) k = (lookupBy m k).map f := by
  induction m with
  | nil => rfl
  | cons kv rest ih =>
    by_cases h : kv.1 = k <;> simp [lookupBy, h, ih]

/-- Folding distinct-key updates over a base mapping: each present key is
rewritten exactly once. -/
theorem lookupBy_foldl_updateKeyW (keys : List String) (g : String → Tensor → Tensor)
    (base : Weights) (k : String) (hnd : keys.Nodup) :
    lookupBy (keys.foldl (fun acc k1 => updateKeyW acc k1 (g k1)) base) k
      = if k ∈ keys then (lookupBy base k).map (g k) else lookupBy base k := by
  induction keys generalizing base with
  | nil => simp
  | cons k0 ks ih =>
    have hnd1 : ks.Nodup := hnd.of_cons
    have hk0 : k0 ∉ ks := (List.nodup_cons.mp hnd).1
    rw [List.foldl_cons, ih _ hnd1]
    by_cases hks : k ∈ ks
    · have hne : k ≠ k0 := fun h => hk0 (h ▸ hks)
      rw [if_pos hks, lookupBy_updateKeyW, if_neg hne, if_pos (List.mem_cons_of_mem _ hks)]
    · rw [if_neg hks, lookupBy_updateKeyW]
      by_cases hk : k = k0
      · rw [if_pos hk, if_pos (by simp [hk]), hk]
      · rw [if_neg hk, if_neg (by simp [hk, hks])]

theorem keysW_foldl_updateKeyW (keys : List String) (g : String → Tensor → Tensor)
    (base : Weights) :
    keysW (keys.foldl (fun acc k1 => updateKeyW acc k1 (g k1)) base) = keysW base := by
  induction keys generalizing base with
  | nil => rfl
  | cons k0 ks ih => rw [List.foldl_cons, ih, keysW_updateKeyW]

theorem keysW_wlmAddExpert (base : Weights) (e : Weights) (w : ℚ) :
    keysW (wlmAddExpert base e w) = keysW base := by
  unfold wlmAddExpert
  induction e generalizing base with
  | nil => rfl
  | cons kv rest ih => rw [List.foldl_cons, ih, keysW_updateKeyW]

theorem lookupBy_wlmAddExpert (base : Weights) (e : Weights) (w : ℚ) (k : String)
    (hnd : (keysW e).Nodup) :
    lookupBy (wlmAddExpert base e w) k
      = if k ∈ keysW e
        then (lookupBy base k).map fun t => tAdd t ((getT e k).map (· * w))
        else lookupBy base k := by
  unfold wlmAddExpert
  induction e generalizing base with
  | nil => simp [keysW]
  | cons kv rest ih =>
    have hnd2 : (kv.1 :: keysW rest).Nodup := hnd
    have hnd1 : (keysW rest).Nodup := (List.nodup_cons.mp hnd2).2
    have hk0 : kv.1 ∉ keysW rest := (List.nodup_cons.mp hnd2).1
    rw [List.foldl_cons, ih _ hnd1]
    by_cases hks : k ∈ keysW rest
    · have hne : k ≠ kv.1 := fun h => hk0 (h ▸ hks)
      rw [if_pos hks, lookupBy_updateKeyW, if_neg hne,
        if_pos (show k ∈ keysW (kv :: rest) from List.mem_cons_of_mem _ hks),
        getT_cons_ne fun h => hne h.symm]
    · rw [if_neg hks, lookupBy_updateKeyW]
      by_cases hk : k = kv.1
      · have hmem2 : k ∈ keysW (kv :: rest) := by
          rw [hk]
          exact List.mem_cons_self kv.1 (keysW rest)
        rw [if_pos hk, if_pos hmem2, getT_cons_self hk.symm]
      · have hnotin : ¬ k ∈ keysW (kv :: rest) := by
          intro hmem
          rcases List.mem_cons.mp hmem with h | h
          · exact hk h
          · exact hks h
        rw [if_neg hk, if_neg hnotin]

/-- Membership of a stored tensor's entry in the flattened parameter vector. -/
theorem mem_flattenExpert {stateKeys : List String} {w : Weights} {k : String}
    (hk : k ∈ stateKeys) {x : ℚ} (hx : x ∈ getT w k) :
    x ∈ flattenExpert stateKeys w := by
  unfold flattenExpert
  rw [List.mem_flatten]
  exact ⟨getT w k, List.mem_map_of_mem _ hk, hx⟩

/-- With top_k = 1 the per-expert threshold is at most every absolute value. -/
theorem expertThreshold_topk_one_le (stateKeys : List String) (w : Weights) (x : ℚ)
    (hx : x ∈ flattenExpert stateKeys w) :
    expertThreshold stateKeys 1 w ≤ |x| := by
  unfold expertThreshold
  rw [show (1 : ℚ) - 1 = 0 by norm_num]
  exact torchQuantile_zero_le _ _ (List.mem_map_of_mem _ hx)

/-- With top_k = 1 the realized kept fraction is exactly 1. -/
theorem realizedKeepFraction_topk_one (stateKeys : List String) (w : Weights)
    (hne : flattenExpert stateKeys w ≠ []) :
    realizedKeepFraction stateKeys 1 w = 1 := by
  unfold realizedKeepFraction
  have hfilter : (flattenExpert stateKeys w).filter
      (fun x => decide (expertThreshold stateKeys 1 w ≤ |x|)) = flattenExpert stateKeys w := by
    rw [List.filter_eq_self]
    intro a ha
    exact decide_eq_true (expertThreshold_topk_one_le stateKeys w a ha)
  simp only [hfilter]
  have hlen : ((flattenExpert stateKeys w).length : ℚ) ≠ 0 := by
    exact_mod_cast fun h =>
      hne (List.eq_nil_of_length_eq_zero (by exact_mod_cast h))
  exact div_self hlen

/-- When every entry clears its expert's threshold, only_sparsify merging is
the unconditional elementwise mean. -/
theorem mergeParamT_sparsify_all_kept {α : Type} (cfg : TiesConfig)
    (hsp : cfg.only_sparsify = true) (l : List α) (thf : α → ℚ) (tf : α → Tensor)
    (hkeep : ∀ e ∈ l, ∀ w ∈ tf e, thf e ≤ |w|) :
    mergeParamT cfg (l.map thf) (l.map tf) = unconditionalMean (l.map tf) := by
  unfold mergeParamT
  rw [zipWith_map_same]
  have htrim : (l.map fun e => (tf e).map fun w => if thf e ≤ |w| then w else 0)
      = l.map tf :=
    List.map_congr_left fun e he => map_if_all_kept _ _ (hkeep e he)
  rw [htrim, if_pos hsp]
  rfl

/-- The accumulation loop of WeightedLinearMerge with no weight mapping:
it always succeeds and adds each expert's tensor, key by key. -/
theorem wlm_foldlM_none (e0 : PExpert) (rest : List PExpert) (acc : Weights)
    (hkeys : keysW acc = keysW e0.weights)
    (hcfg : ∀ e ∈ rest, e.configType = e0.configType)
    (hset : ∀ e ∈ rest, (∀ k ∈ keysW e.weights, k ∈ keysW e0.weights) ∧
      (∀ k ∈ keysW e0.weights, k ∈ keysW e.weights))
    (hnd : ∀ e ∈ rest, (keysW e.weights).Nodup) :
    ∃ final, rest.foldlM (wlmStep { weights := none } e0) acc = .ok final ∧
      keysW final = keysW e0.weights ∧
      ∀ k t0, lookupBy acc k = some t0 →
        lookupBy final k
          = some (rest.foldl (fun s e => tAdd s (getT e.weights k)) t0) := by
  induction rest generalizing acc with
  | nil =>
    refine ⟨acc, rfl, hkeys, fun k t0 h => by simp [h]⟩
  | cons e rest1 ih =>
    have hmem : e ∈ e :: rest1 := List.mem_cons_self e rest1
    have hstep : wlmStep { weights := none } e0 acc e
        = .ok (wlmAddExpert acc e.weights 1) := by
      unfold wlmStep
      rw [if_pos (hcfg e hmem), if_pos]
      constructor
      · intro k hk
        rw [hkeys]
        exact (hset e hmem).1 k hk
      · intro k hk
        exact (hset e hmem).2 k (hkeys ▸ hk)
    have hkeys1 : keysW (wlmAddExpert acc e.weights 1) = keysW e0.weights := by
      rw [keysW_wlmAddExpert, hkeys]
    obtain ⟨final, hfold, hfk, hchar⟩ :=
      ih (wlmAddExpert acc e.weights 1) hkeys1
        (fun e1 h1 => hcfg e1 (List.mem_cons_of_mem _ h1))
        (fun e1 h1 => hset e1 (List.mem_cons_of_mem _ h1))
        (fun e1 h1 => hnd e1 (List.mem_cons_of_mem _ h1))
    refine ⟨final, ?_, hfk, ?_⟩
    · rw [List.foldlM_cons, hstep]
      exact hfold
    · intro k t0 ht0
      have hkin : k ∈ keysW e.weights := by
        refine (hset e hmem).2 k ?_
        rw [← hkeys]
        exact lookupBy_some_mem ht0
      have hacc1 : lookupBy (wlmAddExpert acc e.weights 1) k
          = some (tAdd t0 (getT e.weights k)) := by
        rw [lookupBy_wlmAddExpert acc e.weights 1 k (hnd e hmem), if_pos hkin, ht0]
        simp [map_mul_one]
      rw [List.foldl_cons]
      exact hchar k _ hacc1

theorem readT_append_lt (h ext : Heap) (a : ℕ) (ha : a < h.length) :
    readT (h ++ ext) a = readT h a := by
  unfold readT
  rw [List.getD_eq_getElem?_getD, List.getD_eq_getElem?_getD, List.getElem?_append, if_pos ha]

theorem readT_writeT_ne (h : Heap) (a b : ℕ) (t : Tensor) (hne : b ≠ a) :
    readT (writeT h a t) b = readT h b := by
  unfold readT writeT
  rw [List.getD_eq_getElem?_getD, List.getD_eq_getElem?_getD,
    List.getElem?_set_ne (Ne.symm hne)]

/-- A write at an address at or above n0 leaves every address below n0 alone. -/
theorem readT_writeT_high (h : Heap) (a b : ℕ) (t : Tensor) (n0 : ℕ)
    (hb : b < n0) (ha : n0 ≤ a) : readT (writeT h a t) b = readT h b :=
  readT_writeT_ne h a b t (Nat.ne_of_lt (lt_of_lt_of_le hb ha))

/-- deepcopy produces an extension of the heap, and every address it hands out
is fresh (at or above the original heap length). -/
theorem deepcopyW_go_spec (w : List (String × ℕ)) (h0 : Heap) (acc0 : List (String × ℕ)) :
    (∃ ext, (w.foldl
        (fun st kv => (st.1 ++ [readT st.1 kv.2], st.2 ++ [(kv.1, st.1.length)]))
        (h0, acc0)).1 = h0 ++ ext) ∧
    (∀ kv ∈ (w.foldl
        (fun st kv => (st.1 ++ [readT st.1 kv.2], st.2 ++ [(kv.1, st.1.length)]))
        (h0, acc0)).2, kv ∈ acc0 ∨ h0.length ≤ kv.2) := by
  induction w generalizing h0 acc0 with
  | nil => exact ⟨⟨[], (List.append_nil h0).symm⟩, fun kv hkv => Or.inl hkv⟩
  | cons kv0 ws ih =>
    rw [List.foldl_cons]
    obtain ⟨⟨ext, hext⟩, hmem⟩ := ih (h0 ++ [readT h0 kv0.2]) (acc0 ++ [(kv0.1, h0.length)])
    refine ⟨⟨[readT h0 kv0.2] ++ ext, by rw [hext, List.append_assoc]⟩, ?_⟩
    intro kv1 h1
    rcases hmem kv1 h1 with h2 | h2
    · rcases List.mem_append.mp h2 with h3 | h3
      · exact Or.inl h3
      · right
        have : kv1 = (kv0.1, h0.length) := by simpa using h3
        rw [this]
    · right
      have hlen : h0.length ≤ (h0 ++ [readT h0 kv0.2]).length := by simp
      exact le_trans hlen h2

theorem deepcopyW_heap (h : Heap) (w : List (String × ℕ)) :
    ∃ ext, (deepcopyW h w).1 = h ++ ext :=
  (deepcopyW_go_spec w h []).1

theorem deepcopyW_fresh (h : Heap) (w : List (String × ℕ)) :
    ∀ kv ∈ (deepcopyW h w).2, h.length ≤ kv.2 := by
  intro kv hkv
  rcases (deepcopyW_go_spec w h []).2 kv hkv with h1 | h1
  · cases h1
  · exact h1

theorem deepcopyW_reads (h : Heap) (w : List (String × ℕ)) :
    ∀ a < h.length, readT (deepcopyW h w).1 a = readT h a := by
  intro a ha
  obtain ⟨ext, hext⟩ := deepcopyW_heap h w
  rw [hext]
  exact readT_append_lt h ext a ha

theorem lookupBy_addr_ge {m : List (String × ℕ)} {k : String} {a n0 : ℕ}
    (hbase : ∀ kv ∈ m, n0 ≤ kv.2) (h : lookupBy m k = some a) : n0 ≤ a := by
  induction m with
  | nil => cases h
  | cons kv rest ih =>
    by_cases h1 : kv.1 = k
    · rw [lookupBy, if_pos h1] at h
      cases h
      exact hbase kv (List.mem_cons_self kv rest)
    · rw [lookupBy, if_neg h1] at h
      exact ih (fun kv1 h2 => hbase kv1 (List.mem_cons_of_mem _ h2)) h

theorem wlmScaleBaseH_preserves (base : List (String × ℕ)) (c : ℚ) (n0 : ℕ)
    (hbase : ∀ kv ∈ base, n0 ≤ kv.2) :
    ∀ h, ∀ a < n0, readT (wlmScaleBaseH h base c) a = readT h a := by
  unfold wlmScaleBaseH
  induction base with
  | nil => intro h a _; rfl
  | cons kv rest ih =>
    intro h a ha
    rw [List.foldl_cons,
      ih (fun kv1 h1 => hbase kv1 (List.mem_cons_of_mem _ h1)) _ a ha]
    exact readT_writeT_high _ _ _ _ n0 ha (hbase kv (List.mem_cons_self kv rest))

theorem wlmAddExpertH_preserves (base : List (String × ℕ)) (e : List (String × ℕ))
    (w : ℚ) (n0 : ℕ) (hbase : ∀ kv ∈ base, n0 ≤ kv.2) :
    ∀ h, ∀ a < n0, readT (wlmAddExpertH h base e w) a = readT h a := by
  unfold wlmAddExpertH
  induction e with
  | nil => intro h a _; rfl
  | cons kv rest ih =>
    intro h a ha
    rw [List.foldl_cons, ih _ a ha]
    cases hl : lookupBy base kv.1 with
    | none => rfl
    | some b => exact readT_writeT_high _ _ _ _ n0 ha (lookupBy_addr_ge hbase hl)

theorem wlmLoopH_preserves (cfg : WLMConfig) (e0 : HExpert) (base : List (String × ℕ))
    (n0 : ℕ) (hbase : ∀ kv ∈ base, n0 ≤ kv.2) :
    ∀ (es : List HExpert) (h : Heap), ∀ a < n0,
      readT (wlmLoopH cfg e0 base h es).1 a = readT h a := by
  intro es
  induction es with
  | nil => intro h a _; rfl
  | cons e rest ih =>
    intro h a ha
    unfold wlmLoopH
    by_cases h1 : e.configType = e0.configType
    · rw [if_pos h1]
      by_cases h2 : (∀ k ∈ keysW e.weights, k ∈ keysW base) ∧
          (∀ k ∈ keysW base, k ∈ keysW e.weights)
      · rw [if_pos h2]
        rw [ih _ a ha]
        exact wlmAddExpertH_preserves base e.weights _ n0 hbase h a ha
      · rw [if_neg h2]
    · rw [if_neg h1]

theorem wlmDivideBaseH_preserves (base : List (String × ℕ)) (c : ℚ) (n0 : ℕ)
    (hbase : ∀ kv ∈ base, n0 ≤ kv.2) :
    ∀ h, ∀ a < n0, readT (wlmDivideBaseH h base c) a = readT h a := by
  unfold wlmDivideBaseH
  induction base with
  | nil => intro h a _; rfl
  | cons kv rest ih =>
    intro h a ha
    rw [List.foldl_cons,
      ih (fun kv1 h1 => hbase kv1 (List.mem_cons_of_mem _ h1)) _ a ha]
    exact readT_writeT_high _ _ _ _ n0 ha (hbase kv (List.mem_cons_self kv rest))

theorem tiesMergeFoldH_preserves (cfg : TiesConfig) (ths : List ℚ)
    (all : List HExpert) (base : List (String × ℕ)) (n0 : ℕ)
    (hbase : ∀ kv ∈ base, n0 ≤ kv.2) :
    ∀ (keys : List String) (h : Heap), ∀ a < n0,
      readT (keys.foldl
        (fun h2 k =>
          match lookupBy base k with
          | some b =>
            writeT h2 b
              (mergeParamT cfg ths (all.map fun e => readT h2 ((lookupBy e.weights k).getD 0)))
          | none => h2)
        h) a = readT h a := by
  intro keys
  induction keys with
  | nil => intro h a _; rfl
  | cons k rest ih =>
    intro h a ha
    rw [List.foldl_cons, ih _ a ha]
    cases hl : lookupBy base k with
    | none => rfl
    | some b => exact readT_writeT_high _ _ _ _ n0 ha (lookupBy_addr_ge hbase hl)

/-- WeightedLinearMerge.transform never changes the tensor stored at any
pre-existing heap address: all its writes go to the deep copy's fresh cells. -/
theorem wlmTransformH_preserves (cfg : WLMConfig) (h : Heap) (experts : List HExpert)
    (a : ℕ) (ha : a < h.length) :
    readT (wlmTransformH cfg h experts).1 a = readT h a := by
  cases experts with
  | nil => rfl
  | cons e0 rest =>
    have hfresh : ∀ kv ∈ (deepcopyW h e0.weights).2, h.length ≤ kv.2 :=
      deepcopyW_fresh h e0.weights
    have hpre1 : readT (deepcopyW h e0.weights).1 a = readT h a :=
      deepcopyW_reads h e0.weights a ha
    simp only [wlmTransformH]
    cases hw : cfg.weights with
    | none =>
      simp only [hw]
      rcases hloop : (wlmLoopH cfg e0 (deepcopyW h e0.weights).2
          (deepcopyW h e0.weights).1 rest).2 with msg | u
      · show readT (wlmLoopH cfg e0 (deepcopyW h e0.weights).2
            (deepcopyW h e0.weights).1 rest).1 a = readT h a
        rw [wlmLoopH_preserves cfg e0 _ h.length hfresh rest _ a ha]
        exact hpre1
      · show readT (wlmDivideBaseH
            (wlmLoopH cfg e0 (deepcopyW h e0.weights).2 (deepcopyW h e0.weights).1 rest).1
            (deepcopyW h e0.weights).2 (((e0 :: rest).length : ℚ))) a = readT h a
        rw [wlmDivideBaseH_preserves _ _ h.length hfresh _ a ha,
          wlmLoopH_preserves cfg e0 _ h.length hfresh rest _ a ha]
        exact hpre1
    | some ws =>
      simp only [hw]
      by_cases hks : (∀ k ∈ keysW ws, k ∈ (e0 :: rest).map HExpert.name) ∧
          (∀ k ∈ (e0 :: rest).map HExpert.name, k ∈ keysW ws)
      · rw [if_pos hks]
        rcases hloop : (wlmLoopH cfg e0 (deepcopyW h e0.weights).2
            (wlmScaleBaseH (deepcopyW h e0.weights).1 (deepcopyW h e0.weights).2
              ((lookupBy ws e0.name).getD 0)) rest).2 with msg | u
        · show readT (wlmLoopH cfg e0 (deepcopyW h e0.weights).2
              (wlmScaleBaseH (deepcopyW h e0.weights).1 (deepcopyW h e0.weights).2
                ((lookupBy ws e0.name).getD 0)) rest).1 a = readT h a
          rw [wlmLoopH_preserves cfg e0 _ h.length hfresh rest _ a ha,
            wlmScaleBaseH_preserves _ _ h.length hfresh _ a ha]
          exact hpre1
        · show readT (wlmLoopH cfg e0 (deepcopyW h e0.weights).2
              (wlmScaleBaseH (deepcopyW h e0.weights).1 (deepcopyW h e0.weights).2
                ((lookupBy ws e0.name).getD 0)) rest).1 a = readT h a
          rw [wlmLoopH_preserves cfg e0 _ h.length hfresh rest _ a ha,
            wlmScaleBaseH_preserves _ _ h.length hfresh _ a ha]
          exact hpre1
      · rw [if_neg hks]
        exact hpre1

/-- TiesMerge.transform never changes the tensor stored at any pre-existing
heap address: all its writes go to the deep copy's fresh cells. -/
theorem tiesTransformH_preserves (cfg : TiesConfig) (h : Heap) (experts : List HExpert)
    (a : ℕ) (ha : a < h.length) :
    readT (tiesTransformH cfg h experts).1 a = readT h a := by
  cases experts with
  | nil => rfl
  | cons e0 rest =>
    have hfresh : ∀ kv ∈ (deepcopyW h e0.weights).2, h.length ≤ kv.2 :=
      deepcopyW_fresh h e0.weights
    have hpre1 : readT (deepcopyW h e0.weights).1 a = readT h a :=
      deepcopyW_reads h e0.weights a ha
    simp only [tiesTransformH]
    split
    · rw [tiesMergeFoldH_preserves _ _ _ _ h.length hfresh _ _ a ha]
      exact hpre1
    · exact hpre1

/-! ## Claim theorems -/

/-- C10: TiesMerge.__init__ succeeds exactly when 0 < top_k <= 1, and any
config it returns (hence any instance that reaches transform) satisfies
0 < top_k <= 1. -/
theorem tiesInit_rejects_invalid_topk (cfg : TiesConfig) :
    (tiesInit cfg = .ok cfg ↔ (0 < cfg.top_k ∧ cfg.top_k ≤ 1)) ∧
    (∀ c, tiesInit cfg = .ok c → 0 < c.top_k ∧ c.top_k ≤ 1) := by
  unfold tiesInit
  by_cases h : 0 < cfg.top_k ∧ cfg.top_k ≤ 1
  · refine ⟨by simp [h], ?_⟩
    intro c hc
    rw [if_pos h] at hc
    cases hc
    exact h
  · refine ⟨by simp [h], ?_⟩
    intro c hc
    rw [if_neg h] at hc
    cases hc

/-- C10 witness: the default-like config top_k = 1/5 is accepted and lies in
the interval. -/
theorem tiesInit_rejects_invalid_topk_witness :
    tiesInit { top_k := 1/5, only_sparsify := false }
      = .ok { top_k := 1/5, only_sparsify := false } :=
  (tiesInit_rejects_invalid_topk { top_k := 1/5, only_sparsify := false }).1.mpr
    (by norm_num)

/-- C7: fetch returns the cached mapping exactly when its size equals the
expert count K and raises the "missing or corrupted" ValueError otherwise;
transform with recompute=False short-circuits to the cached mapping when the
size equals K, and recomputes (returning the recomputation, never the fetch
error) when the size is below K. -/
theorem svd_cache_completeness_gate (aux : List (String × Tensor)) (K : ℕ)
    (computed : List (String × Tensor)) :
    (aux.length = K → svdFetch aux K = .ok aux) ∧
    (aux.length ≠ K →
      svdFetch aux K
        = .error "SVD embeddings are missing or corrupted, please recompute them.") ∧
    (aux.length = K → svdTransform aux K false computed = aux) ∧
    (aux.length < K → svdTransform aux K false computed = computed) := by
  refine ⟨fun h => ?_, fun h => ?_, fun h => ?_, fun h => ?_⟩
  · simp [svdFetch, h]
  · simp [svdFetch, h]
  · simp [svdTransform, svdFetch, h]
  · simp [svdTransform, svdFetch, Nat.ne_of_lt h]

/-- C7 witness: a complete cache (size 1 of 1) is returned as is; an
incomplete cache (size 1 of 2) triggers recomputation. -/
theorem svd_cache_completeness_gate_witness :
    svdTransform [("a", ([] : Tensor))] 1 false [("c", [])] = [("a", [])] ∧
    svdTransform [("a", ([] : Tensor))] 2 false [("c", [])] = [("c", [])] :=
  ⟨(svd_cache_completeness_gate [("a", [])] 1 [("c", [])]).2.2.1 (by decide),
   (svd_cache_completeness_gate [("a", [])] 2 [("c", [])]).2.2.2 (by decide)⟩

/-- C5: merging a LoRA into its non-quantized linear layer adds
scaling * (A B) to the weight (transposed unless the back-compatibility shape
test holds), and afterwards forward returns exactly the base layer's output. -/
theorem lora_merge_with_layer_folds {i o r : ℕ} (st : LoRAState i o r) :
    (st.mergeWithLayer).layer.weight
      = st.layer.weight + st.scaling •
          ((if h : i = o
            then (fun x y => (st.lora_a * st.lora_b) (Fin.cast h.symm x) (Fin.cast h y))
            else (st.lora_a * st.lora_b).transpose) : Matrix (Fin o) (Fin i) ℚ) ∧
    (∀ x, (st.mergeWithLayer).forward x = (st.mergeWithLayer).layer.forward x) := by
  refine ⟨rfl, fun x => ?_⟩
  simp [LoRAState.forward, LoRAState.mergeWithLayer]

/-- C6: a freshly constructed LoRA with default (zero-B) configuration is an
exact no-op: forward(x) = layer(x) for every input. -/
theorem lora_fresh_default_noop {i o r : ℕ} (cfg : LoRAConfigQ) (layer : LinearQ i o)
    (a_draw : Matrix (Fin i) (Fin r) ℚ) (b_draw : Matrix (Fin r) (Fin o) ℚ)
    (hb : cfg.lora_init_b_random = false) (x : Fin i → ℚ) :
    (loraNew cfg layer a_draw b_draw).forward x = layer.forward x := by
  simp [loraNew, LoRAState.forward, loraResetB, hb, Matrix.vecMul_zero]

/-- C6 witness: a concrete 1-dimensional fresh adapter is a no-op. -/
theorem lora_fresh_default_noop_witness :
    (loraNew { lora_alpha := 16, lora_init_b_random := false }
        (⟨Matrix.of ![![2]], ![3]⟩ : LinearQ 1 1)
        (Matrix.of ![![5]]) (Matrix.of ![![7]])).forward ![11]
      = LinearQ.forward ⟨Matrix.of ![![2]], ![3]⟩ ![11] :=
  lora_fresh_default_noop _ _ _ _ rfl ![11]

/-- C2: the Arrow eigenvector validation is computed but its result is
discarded (library_transforms.py line 1644 is a bare torch.allclose call, not
an assert), so a vector failing the validation is still accepted and saved:
at the failing input below the allclose check is false, yet the per-layer
acceptance step returns the vector instead of halting. -/
theorem arrow_eigencheck_not_enforced :
    allcloseOnes
        (fun j => (arrowW.transpose * arrowW).mulVec arrowTop j / (arrowTop j * 1))
        (1/100000) (1/1000) = false ∧
    arrowCheckTopVector arrowW arrowTop arrowBottom 1 = .ok arrowTop := by
  have hWTW : arrowW.transpose * arrowW = !![1, 0; 0, 4] := by
    ext i j
    fin_cases i <;> fin_cases j <;>
      norm_num [arrowW, Matrix.mul_apply, Matrix.transpose, Fin.sum_univ_two]
  have htop : (arrowW.transpose * arrowW).mulVec arrowTop = ![1, 4] := by
    rw [hWTW]
    funext i
    fin_cases i <;>
      simp [Matrix.mulVec, Matrix.dotProduct, arrowTop, Fin.sum_univ_two]
  have hbot : (arrowW.transpose * arrowW).mulVec arrowBottom = ![1, 0] := by
    rw [hWTW]
    funext i
    fin_cases i <;>
      simp [Matrix.mulVec, Matrix.dotProduct, arrowBottom, Fin.sum_univ_two]
  have hcmp : sqNormV ((arrowW.transpose * arrowW).mulVec arrowBottom)
      ≤ sqNormV ((arrowW.transpose * arrowW).mulVec arrowTop) := by
    rw [htop, hbot]
    norm_num [sqNormV, Fin.sum_univ_two]
  constructor
  · rw [allcloseOnes, decide_eq_false_iff_not]
    intro hall
    have h1 := hall 1
    rw [htop] at h1
    simp [arrowTop] at h1
    norm_num at h1
  · show (if sqNormV ((arrowW.transpose * arrowW).mulVec arrowBottom)
        ≤ sqNormV ((arrowW.transpose * arrowW).mulVec arrowTop)
        then (Except.ok arrowTop : Except String (Fin 2 → ℚ))
        else .error "AssertionError") = .ok arrowTop
    rw [if_pos hcmp]

/-- C3 amended: the per-step loss of the rank-reduced variant (WuDiMerge2)
is the sum over tasks of the squared Frobenius norm of
(M - taskvector_i) low_rank_i^T divided by the squared Frobenius norm of
taskvector_i, while the plain variant (WudiMergeAfter) omits the
normalization: its per-step loss is the plain sum of squared Frobenius norms
of (M - tau_i) tau_i^T. -/
theorem wudi_step_loss_characterization {a b : ℕ} (M : Matrix (Fin a) (Fin b) ℚ)
    (taskvector low_rank τs : List (Matrix (Fin a) (Fin b) ℚ)) :
    wudiAfterStepLoss M τs = (τs.map fun τ => sqFrob ((M - τ) * τ.transpose)).sum ∧
    wudi2StepLoss M taskvector low_rank
      = ((taskvector.zip low_rank).map fun p =>
          sqFrob ((M - p.1) * p.2.transpose) / sqFrob p.1).sum := by
  refine ⟨rfl, ?_⟩
  unfold wudi2StepLoss
  congr 1
  apply List.map_congr_left
  intro p _
  simp [sqFrob, Finset.sum_div]

/-- C3 counterexample: at a concrete one-by-one instance the plain variant's
per-step loss is 16 while the loss the claim ascribes to it (normalized by the
squared task norm) is 4, so the claim is false for WudiMergeAfter. -/
theorem wudi_after_loss_not_normalized :
    wudiAfterStepLoss cexM [cexTau] = 16 ∧
    specNormalizedDisentangleLoss cexM [cexTau] = 4 ∧
    (16 : ℚ) ≠ 4 := by
  refine ⟨?_, ?_, by norm_num⟩
  · simp [wudiAfterStepLoss, cexM, cexTau, Matrix.mul_apply, Matrix.sub_apply,
      Matrix.transpose_apply, Fin.sum_univ_one]
    norm_num
  · simp [specNormalizedDisentangleLoss, sqFrob, cexM, cexTau, Matrix.mul_apply,
      Matrix.sub_apply, Matrix.transpose_apply, Fin.sum_univ_one]
    norm_num

/-- C1 counterexample: with top_k = 1 and only_sparsify = False the output is
not the unconditional mean: for the two compatible experts holding [2] and
[-1] at key "k" (all elements kept, thresholds pass), the sign-consensus vote
produces [2], while the unconditional elementwise mean is [1/2]. -/
theorem ties_topk1_sign_vote_not_mean :
    (tiesTransform { top_k := 1, only_sparsify := false } [cexTiesA, cexTiesB]).map
        (fun out => lookupBy out.weights "k") = .ok (some [2]) ∧
    unconditionalMean [getT cexTiesA.weights "k", getT cexTiesB.weights "k"] = [1/2] ∧
    (some ([2] : Tensor) ≠ some ([1/2] : Tensor)) := by
  refine ⟨?_, ?_, ?_⟩ <;> with_unfolding_all decide

/-- C1 amended: with top_k = 1 no pruning occurs, and under only_sparsify the
merged expert's every tensor is the unconditional elementwise mean of the
corresponding tensors across the input experts; with only_sparsify = False the
sign-consensus vote averages only the entries agreeing with the sign of the
elementwise sum, which differs from the unconditional mean in general. -/
theorem ties_topk1_only_sparsify_unconditional_mean (e0 : PExpert) (rest : List PExpert)
    (hnd : (keysW e0.weights).Nodup)
    (_hkeys : ∀ e ∈ e0 :: rest, (∀ k ∈ keysW e.weights, k ∈ keysW e0.weights) ∧
      (∀ k ∈ keysW e0.weights, k ∈ keysW e.weights))
    (hflat : ∀ e ∈ e0 :: rest, flattenExpert (keysW e0.weights) e.weights ≠ []) :
    ∃ out, tiesTransform { top_k := 1, only_sparsify := true } (e0 :: rest) = .ok out ∧
      keysW out.weights = keysW e0.weights ∧
      ∀ k ∈ keysW e0.weights,
        lookupBy out.weights k
          = some (unconditionalMean ((e0 :: rest).map fun e => getT e.weights k)) := by
  have hguard : tiesGuardOK { top_k := 1, only_sparsify := true }
      (keysW e0.weights) (e0 :: rest) := by
    intro e he
    show |realizedKeepFraction (keysW e0.weights) 1 e.weights - 1| < 1/10000
    rw [realizedKeepFraction_topk_one _ _ (hflat e he)]
    norm_num
  refine ⟨{ name := "ties_weighted_expert", configType := e0.configType,
            weights := tiesMergedWeights { top_k := 1, only_sparsify := true }
              ((e0 :: rest).map fun e => expertThreshold (keysW e0.weights) 1 e.weights)
              (e0 :: rest) (keysW e0.weights) e0.weights }, ?_, ?_, ?_⟩
  · show tiesTransform _ (e0 :: rest) = _
    simp only [tiesTransform]
    rw [dif_pos hguard]
  · show keysW (tiesMergedWeights _ _ _ _ e0.weights) = _
    unfold tiesMergedWeights
    exact keysW_foldl_updateKeyW _ _ _
  · intro k hk
    show lookupBy (tiesMergedWeights _ _ _ _ e0.weights) k = _
    unfold tiesMergedWeights
    rw [lookupBy_foldl_updateKeyW _ _ _ _ hnd, if_pos hk]
    obtain ⟨t0, ht0⟩ := mem_keysW_lookupBy hk
    rw [ht0]
    show some (mergeParamT _ _ _) = _
    have := mergeParamT_sparsify_all_kept (α := PExpert)
      { top_k := 1, only_sparsify := true } rfl (e0 :: rest)
      (fun e => expertThreshold (keysW e0.weights) 1 e.weights)
      (fun e => getT e.weights k)
      (fun e _ w hw =>
        expertThreshold_topk_one_le _ _ _ (mem_flattenExpert hk hw))
    rw [this]

/-- C1 witness: two compatible two-entry experts merged with top_k = 1 and
only_sparsify succeed and average elementwise. -/
theorem ties_topk1_only_sparsify_unconditional_mean_witness :
    ∃ out, tiesTransform { top_k := 1, only_sparsify := true } [witWlmA, witWlmB] = .ok out ∧
      keysW out.weights = keysW witWlmA.weights ∧
      ∀ k ∈ keysW witWlmA.weights,
        lookupBy out.weights k
          = some (unconditionalMean ([witWlmA, witWlmB].map fun e => getT e.weights k)) :=
  ties_topk1_only_sparsify_unconditional_mean witWlmA [witWlmB]
    (by with_unfolding_all decide) (by with_unfolding_all decide)
    (by with_unfolding_all decide)

/-- C4 counterexample: the kept-fraction law fails as a universal statement:
for a single expert with flattened vector [1, 1] and top_k = 1/2, the
(1-top_k)-quantile threshold is 1, every entry is kept (realized fraction 1,
off by 1/2 from top_k), and transform halts with the assertion error. -/
theorem ties_kept_fraction_law_fails :
    realizedKeepFraction (keysW cexTiesTie.weights) (1/2) cexTiesTie.weights = 1 ∧
    ¬ (|(1 : ℚ) - 1/2| < 1/10000) ∧
    tiesTransform { top_k := 1/2, only_sparsify := false } [cexTiesTie]
      = .error "AssertionError" := by
  refine ⟨?_, ?_, ?_⟩ <;> with_unfolding_all decide

/-- C4 amended: the per-expert threshold is the (1-top_k)-quantile of the
absolute values of the expert's flattened parameter vector, and the realized
kept-fraction law is enforced as an assertion: whenever transform returns an
expert, every input expert's realized kept fraction is within 1e-4 of top_k;
inputs violating it (e.g. tied absolute values) make transform raise instead. -/
theorem ties_kept_fraction_enforced (cfg : TiesConfig) (e0 : PExpert)
    (rest : List PExpert) (out : PExpert)
    (hok : tiesTransform cfg (e0 :: rest) = .ok out) :
    ∀ e ∈ e0 :: rest,
      |realizedKeepFraction (keysW e0.weights) cfg.top_k e.weights - cfg.top_k|
        < 1/10000 := by
  simp only [tiesTransform] at hok
  by_cases h : tiesGuardOK cfg (keysW e0.weights) (e0 :: rest)
  · exact h
  · rw [dif_neg h] at hok
    cases hok

/-- C4 witness: a successful run (top_k = 1) whose realized fraction matches. -/
theorem ties_kept_fraction_enforced_witness :
    |realizedKeepFraction (keysW witTies.weights) 1 witTies.weights - 1| < 1/10000 :=
  ties_kept_fraction_enforced { top_k := 1, only_sparsify := true } witTies []
    { name := "ties_weighted_expert", configType := "LoRAConfig", weights := [("k", [1, 2])] }
    (by with_unfolding_all decide) witTies (by with_unfolding_all decide)

/-- C8: WeightedLinearMerge.transform with weights=None returns an expert
whose every tensor is the unconditional elementwise mean of the corresponding
tensors of all input experts. -/
theorem wlm_uniform_average (e0 : PExpert) (rest : List PExpert)
    (hcfg : ∀ e ∈ rest, e.configType = e0.configType)
    (hset : ∀ e ∈ rest, (∀ k ∈ keysW e.weights, k ∈ keysW e0.weights) ∧
      (∀ k ∈ keysW e0.weights, k ∈ keysW e.weights))
    (hnd : ∀ e ∈ rest, (keysW e.weights).Nodup) :
    ∃ out, wlmTransform { weights := none } (e0 :: rest) = .ok out ∧
      ∀ k ∈ keysW e0.weights,
        lookupBy out.weights k
          = some (unconditionalMean ((e0 :: rest).map fun e => getT e.weights k)) := by
  obtain ⟨final, hfold, hfk, hchar⟩ := wlm_foldlM_none e0 rest e0.weights rfl hcfg hset hnd
  refine ⟨{ name := "weighted_expert", configType := e0.configType,
            weights := final.map fun kv =>
              (kv.1, kv.2.map (· / (((e0 :: rest).length : ℕ) : ℚ))) }, ?_, ?_⟩
  · show wlmTransform _ (e0 :: rest) = _
    simp only [wlmTransform]
    rw [hfold]
  · intro k hk
    obtain ⟨t0, ht0⟩ := mem_keysW_lookupBy hk
    have hgt : getT e0.weights k = t0 := by simp [getT, ht0]
    show lookupBy ((final.map fun kv =>
      (kv.1, kv.2.map (· / (((e0 :: rest).length : ℕ) : ℚ))))) k = _
    rw [lookupBy_map_value, hchar k t0 ht0]
    show some ((rest.foldl (fun s e => tAdd s (getT e.weights k)) t0).map
      (· / (((e0 :: rest).length : ℕ) : ℚ))) = _
    congr 1
    simp [unconditionalMean, List.foldl_map, hgt]

/-- C9: WeightedLinearMerge.transform and TiesMerge.transform leave every
input expert unchanged: they mutate only the deep-copied accumulator's fresh
heap cells, so after either transform (success or assertion failure) each
tensor reachable from an input expert's weight mapping holds its old value. -/
theorem merge_transforms_preserve_input_experts (cfgW : WLMConfig) (cfgT : TiesConfig)
    (h : Heap) (experts : List HExpert)
    (hvalid : ∀ e ∈ experts, ∀ kv ∈ e.weights, kv.2 < h.length) :
    (∀ e ∈ experts, ∀ kv ∈ e.weights,
        readT (wlmTransformH cfgW h experts).1 kv.2 = readT h kv.2) ∧
    (∀ e ∈ experts, ∀ kv ∈ e.weights,
        readT (tiesTransformH cfgT h experts).1 kv.2 = readT h kv.2) :=
  ⟨fun e he kv hkv => wlmTransformH_preserves cfgW h experts kv.2 (hvalid e he kv hkv),
   fun e he kv hkv => tiesTransformH_preserves cfgT h experts kv.2 (hvalid e he kv hkv)⟩

/-- C9 witness: a concrete two-expert heap (both experts point at cell 0) is
untouched by both transforms. -/
theorem merge_transforms_preserve_input_experts_witness :
    (∀ e ∈ [HExpert.mk "a" "LoRAConfig" [("k", 0)], HExpert.mk "b" "LoRAConfig" [("k", 0)]],
      ∀ kv ∈ e.weights,
        readT (wlmTransformH { weights := none } [[(5 : ℚ)]]
          [HExpert.mk "a" "LoRAConfig" [("k", 0)], HExpert.mk "b" "LoRAConfig" [("k", 0)]]).1 kv.2
          = readT [[(5 : ℚ)]] kv.2) ∧
    (∀ e ∈ [HExpert.mk "a" "LoRAConfig" [("k", 0)], HExpert.mk "b" "LoRAConfig" [("k", 0)]],
      ∀ kv ∈ e.weights,
        readT (tiesTransformH { top_k := 1, only_sparsify := true } [[(5 : ℚ)]]
          [HExpert.mk "a" "LoRAConfig" [("k", 0)], HExpert.mk "b" "LoRAConfig" [("k", 0)]]).1 kv.2
          = readT [[(5 : ℚ)]] kv.2) :=
  merge_transforms_preserve_input_experts { weights := none }
    { top_k := 1, only_sparsify := true } [[(5 : ℚ)]]
    [HExpert.mk "a" "LoRAConfig" [("k", 0)], HExpert.mk "b" "LoRAConfig" [("k", 0)]]
    (by decide)

/-- C8 witness: two compatible two-entry experts average to [2, 4]. -/
theorem wlm_uniform_average_witness :
    ∃ out, wlmTransform { weights := none } [witWlmA, witWlmB] = .ok out ∧
      ∀ k ∈ keysW witWlmA.weights,
        lookupBy out.weights k
          = some (unconditionalMean ([witWlmA, witWlmB].map fun e => getT e.weights k)) :=
  wlm_uniform_average witWlmA [witWlmB]
    (by with_unfolding_all decide) (by with_unfolding_all decide)
    (by with_unfolding_all decide)

end Mttl
